import Mathlib

/-!
Verification of the JSON Schema flattener in `etc/postgen/schema/json_schema.go`.

The Go code operates on the generic JSON tree produced by `encoding/json`
(`map[string]any` / `[]any` / scalars).  We embed that tree as the inductive
`Json` below, with objects as association lists of string keys (Go maps are
unordered with unique keys; `json.MarshalIndent` serializes maps with sorted
keys, so the canonical list form of an object is its key-sorted association
list, and map update is modelled by sorted insertion `insertKV`).  Numbers are
modelled as integers: the flattener never inspects numeric values.

Go string primitives (`strings.HasPrefix`, `strings.Split`,
`strings.ReplaceAll`, `strings.Join`, `strings.ToLower`, `strings.HasSuffix`)
are implemented over `List Char` so that every definition reduces inside the
kernel.

`inlineRefs` in the source terminates because every `$ref` chain is cut by the
cycle check; the embedding makes the recursion manifestly total with an
explicit fuel parameter that is decremented on every recursive call.  Fuel
exhaustion is the distinguished outcome `Res.fuelOut`, never confused with the
error strings the source produces.
-/

namespace SchemaFlat

/-- Character-list test for `strings.HasPrefix`. -/
def isPrefixChars : List Char → List Char → Bool
  | [], _ => true
  | _ :: _, [] => false
  | p :: ps, c :: cs => p = c && isPrefixChars ps cs

/-- Go `strings.HasPrefix s pre`. -/
def hasPrefixGo (s pre : String) : Bool := isPrefixChars pre.data s.data

/-- Go `strings.Split` with a single-character separator (the source only ever
splits on `"/"`).  Splitting an empty list yields `[""]`, as in Go. -/
def splitChars (sep : Char) : List Char → List (List Char)
  | [] => [[]]
  | c :: rest =>
    let r := splitChars sep rest
    if c = sep then [] :: r
    else
      match r with
      | h :: t => (c :: h) :: t
      | [] => [[c]]

/-- Go `strings.ReplaceAll` for a two-character pattern `p1 p2` replaced by the
single character `r` (the source only replaces `"~1"` by `"/"` and `"~0"` by
`"~"`): leftmost, non-overlapping. -/
def replace2 (p1 p2 r : Char) : List Char → List Char
  | [] => []
  | [c] => [c]
  | c1 :: c2 :: rest =>
    if c1 = p1 ∧ c2 = p2 then r :: replace2 p1 p2 r rest
    else c1 :: replace2 p1 p2 r (c2 :: rest)

/-- JSON Pointer segment unescaping, `json_schema.go:247-248`:
`~1` → `/` first, then `~0` → `~`. -/
def unescapeSeg (raw : String) : String :=
  String.mk (replace2 '~' '0' '~' (replace2 '~' '1' '/' raw.data))

/-- Go `strings.Join elems " -> "` as used by the cyclic-reference error. -/
def joinArrow : List String → String
  | [] => ""
  | [s] => s
  | s :: rest => s ++ " -> " ++ joinArrow rest

/-- Byte-wise strict order on character lists (ASCII-faithful rendering of the
key order `encoding/json` uses when serializing map keys). -/
def charsLt : List Char → List Char → Bool
  | [], [] => false
  | [], _ :: _ => true
  | _ :: _, [] => false
  | a :: as, b :: bs =>
    if a.toNat < b.toNat then true
    else if b.toNat < a.toNat then false
    else charsLt as bs

/-- Strict order on object keys. -/
def keyLt (a b : String) : Bool := charsLt a.data b.data

/-- Minimal rendering of Go's `%q` verb: surround with double quotes, escaping
backslash and double quote.  (Go additionally escapes control and non-printable
characters, which never occur in the strings this development evaluates.) -/
def quoteChars : List Char → List Char
  | [] => []
  | c :: rest =>
    if c = '"' ∨ c = '\\' then '\\' :: c :: quoteChars rest
    else c :: quoteChars rest

/-- Go `fmt` `%q` on a string. -/
def goQuote (s : String) : String := "\"" ++ String.mk (quoteChars s.data) ++ "\""

/-- The generic JSON tree `encoding/json` unmarshals into `any`:
objects are association lists of string keys. -/
inductive Json where
  | null
  | bool (b : Bool)
  | num (n : Int)
  | str (s : String)
  | arr (elems : List Json)
  | obj (fields : List (String × Json))
deriving Repr

/-- Go `%T` on the dynamic type of an unmarshaled JSON value. -/
def goTypeName : Json → String
  | .null => "<nil>"
  | .bool _ => "bool"
  | .num _ => "float64"
  | .str _ => "string"
  | .arr _ => "[]interface \x7b\x7d"
  | .obj _ => "map[string]interface \x7b\x7d"

/-- Go map read `m[key]`: first (only, in well-formed data) binding of `key`. -/
def lookupKV {α : Type} : List (String × α) → String → Option α
  | [], _ => none
  | (k, v) :: rest, key => if k = key then some v else lookupKV rest key

/-- Go map write `m[key] = v` on the canonical key-sorted association list:
replace an existing binding in place, otherwise insert at the key's sorted
position. -/
def insertKV {α : Type} (k : String) (v : α) : List (String × α) → List (String × α)
  | [] => [(k, v)]
  | (k2, v2) :: rest =>
    if k = k2 then (k, v) :: rest
    else if keyLt k k2 then (k, v) :: (k2, v2) :: rest
    else (k2, v2) :: insertKV k v rest

mutual
/-- Structural size of a JSON tree (used for fuel bounds and induction). -/
def jsize : Json → Nat
  | .obj kvs => 1 + jsizeKVs kvs
  | .arr xs => 1 + jsizeList xs
  | _ => 1
def jsizeKVs : List (String × Json) → Nat
  | [] => 0
  | kv :: rest => 1 + jsize kv.2 + jsizeKVs rest
def jsizeList : List Json → Nat
  | [] => 0
  | x :: rest => 1 + jsize x + jsizeList rest
end

/-- Outcome of a fuelled computation: a value, a Go error string, or fuel
exhaustion (an artifact of the embedding, not a behaviour of the source). -/
inductive Res (α : Type) where
  | ok (val : α)
  | err (msg : String)
  | fuelOut
deriving Repr

/-- Sequencing of fuelled computations. -/
def Res.bind {α β : Type} : Res α → (α → Res β) → Res β
  | .ok a, f => f a
  | .err m, _ => .err m
  | .fuelOut, _ => .fuelOut

/-- Error for a non-local reference, `json_schema.go:236`. -/
def unsupportedRefMsg (ptr : String) : String :=
  "only local refs supported, got: " ++ goQuote ptr

/-- Error for descending through a non-object, `json_schema.go:252`. -/
def nonObjectMsg (ptr seg : String) (cur : Json) : String :=
  "pointer " ++ goQuote ptr ++ ": encountered non-object at " ++ goQuote seg ++
    " (got " ++ goTypeName cur ++ ")"

/-- Error for a missing pointer segment, `json_schema.go:256`. -/
def unresolvedMsg (ptr seg : String) : String :=
  "unresolved $ref " ++ goQuote ptr ++ ": missing key " ++ goQuote seg

/-- Error for a non-string `$ref` value, `json_schema.go:102`. -/
def refTypeMsg (v : Json) : String := "$ref must be a string, got " ++ goTypeName v

/-- Error for a cyclic reference, `json_schema.go:105`: the chain is the stack
followed by the current pointer, joined by `" -> "`. -/
def cyclicMsg (stack : List String) (refStr : String) : String :=
  "cyclic $ref detected: " ++ joinArrow (stack ++ [refStr])

/-- The segment-descent loop of `getByPointer`, `json_schema.go:246-259`:
unescape each raw segment, require the current value to be an object, and look
the segment up. -/
def resolveSegs (ptr : String) : Json → List String → Except String Json
  | cur, [] => .ok cur
  | cur, raw :: rest =>
    let p := unescapeSeg raw
    match cur with
    | .obj m =>
      match lookupKV m p with
      | some next => resolveSegs ptr next rest
      | none => .error (unresolvedMsg ptr p)
    | _ => .error (nonObjectMsg ptr p cur)

/-- `getByPointer`, `json_schema.go:234-261`: local JSON Pointer resolution.
Only `#/...` pointers are supported; the bare `#/` resolves to the root. -/
def getByPointer (root : Json) (ptr : String) : Except String Json :=
  if hasPrefixGo ptr "#/" then
    let path := ptr.data.drop 2
    if path = [] then .ok root
    else resolveSegs ptr root ((splitChars '/' path).map String.mk)
  else .error (unsupportedRefMsg ptr)

/-- `contains`, `json_schema.go:263-270`: linear scan of the resolution stack. -/
def containsGo : List String → String → Bool
  | [], _ => false
  | x :: rest, s => if x = s then true else containsGo rest s

/-- `deepClone`, `json_schema.go:272-278`: a JSON round-trip copy.  On the
value content modelled here the round trip is the identity (it exists in the
source only to break pointer aliasing). -/
def deepClone (v : Json) : Json := v

/-- Resolve every value of an association list with `f`, keeping keys and
order (the per-key body of the Go `for k, child := range v` loops). -/
def inlineKVs (f : Json → Res Json) : List (String × Json) → Res (List (String × Json))
  | [] => .ok []
  | (k, c) :: rest =>
    (f c).bind fun rc => (inlineKVs f rest).bind fun rs => .ok ((k, rc) :: rs)

/-- Resolve every element of a list with `f`, preserving order and length. -/
def inlineList (f : Json → Res Json) : List Json → Res (List Json)
  | [] => .ok []
  | x :: rest =>
    (f x).bind fun rx => (inlineList f rest).bind fun rs => .ok (rx :: rs)

/-- The merge of `json_schema.go:133-144`: copy the resolved target dropping
any `$defs` key, then write every sibling on top (siblings win). -/
def mergeObj (rm siblings : List (String × Json)) : List (String × Json) :=
  siblings.foldl (fun acc kv => insertKV kv.1 kv.2 acc)
    (rm.filter fun kv => kv.1 != "$defs")

/-- `inlineRefs`, `json_schema.go:95-179`.  `fuel` is decremented on every
recursive call; the source recursion needs no fuel because cycle detection
bounds it.  An object with a `$ref` key: the value must be a string, the
pointer must not already be on the stack, the target is resolved against
`root`, deep-cloned, and inlined with the pointer pushed; the siblings (all
keys except `$ref` and `$defs`) are inlined with the unchanged stack; if the
inlined target is an object the two are merged (siblings win), otherwise the
inlined target is returned alone.  A plain object is inlined key-wise with
`$defs` dropped; an array element-wise; scalars are returned unchanged. -/
def inlineRefs : Nat → Json → Json → List String → Res Json
  | 0, _, _, _ => .fuelOut
  | fuel + 1, node, root, stack =>
    match node with
    | .obj kvs =>
      match lookupKV kvs "$ref" with
      | some refVal =>
        match refVal with
        | .str refStr =>
          if containsGo stack refStr then .err (cyclicMsg stack refStr)
          else
            match getByPointer root refStr with
            | .error e => .err e
            | .ok target =>
              (inlineRefs fuel (deepClone target) root (stack ++ [refStr])).bind
                fun resolvedTarget =>
              (inlineKVs (fun c => inlineRefs fuel c root stack)
                  (kvs.filter fun kv => kv.1 != "$ref" && kv.1 != "$defs")).bind
                fun siblings =>
              match resolvedTarget with
              | .obj rm => .ok (.obj (mergeObj rm siblings))
              | other => .ok other
        | other => .err (refTypeMsg other)
      | none =>
        (inlineKVs (fun c => inlineRefs fuel c root stack)
            (kvs.filter fun kv => kv.1 != "$defs")).bind
          fun out => .ok (.obj out)
    | .arr xs =>
      (inlineList (fun c => inlineRefs fuel c root stack) xs).bind
        fun out => .ok (.arr out)
    | other => .ok other

mutual
/-- `stripKeysRecursive`, `json_schema.go:208-229`: remove `$id`, `$defs` and
`$schema` bindings from every object, recursing into remaining values and into
array elements; scalars unchanged. -/
def stripKeysRecursive : Json → Json
  | .obj kvs => .obj (stripKVs kvs)
  | .arr xs => .arr (stripList xs)
  | other => other
def stripKVs : List (String × Json) → List (String × Json)
  | [] => []
  | (k, c) :: rest =>
    if k = "$id" ∨ k = "$defs" ∨ k = "$schema" then stripKVs rest
    else (k, stripKeysRecursive c) :: stripKVs rest
def stripList : List Json → List Json
  | [] => []
  | x :: rest => stripKeysRecursive x :: stripList rest
end

/-- Whether a JSON value is the `null` scalar (which `encoding/json` unmarshals
to the `nil` interface). -/
def isNullJ : Json → Bool
  | .null => true
  | _ => false

/-- The capture of the top-level `$schema`, `json_schema.go:187-194`.  Go holds
it in an `any` initialized to `nil` and later tests `topSchema != nil`; a JSON
`null` value unmarshals to the `nil` interface, so a captured `null` is
indistinguishable from an absent key and is treated as absent. -/
def topSchemaOf : Json → Option Json
  | .obj m =>
    match lookupKV m "$schema" with
    | some v => if isNullJ v then none else some v
    | none => none
  | _ => none

/-- `stripKeys`, `json_schema.go:185-206`: capture the top-level `$schema`
(when preservation is on), strip recursively, then restore the captured value
onto the top-level object. -/
def stripKeys (node : Json) (keepTopLevelSchema : Bool) : Json :=
  let topSchema := if keepTopLevelSchema then topSchemaOf node else none
  let cleaned := stripKeysRecursive node
  match topSchema with
  | some v =>
    match cleaned with
    | .obj m2 => .obj (insertKV "$schema" v m2)
    | other => other
  | none => cleaned

/-- The per-file transformation of `InlineBundledSchemasInFS`,
`json_schema.go:55-64`: inline references against the pristine root, then
strip bookkeeping keys with top-level `$schema` preservation. -/
def flattenDoc (fuel : Nat) (root : Json) : Res Json :=
  match inlineRefs fuel root root [] with
  | .ok resolved => .ok (stripKeys resolved true)
  | .err m => .err m
  | .fuelOut => .fuelOut

mutual
/-- Whether a binding of `key` occurs anywhere in the tree. -/
def hasKeyDeep (key : String) : Json → Bool
  | .obj kvs => hasKeyKVs key kvs
  | .arr xs => hasKeyList key xs
  | _ => false
def hasKeyKVs (key : String) : List (String × Json) → Bool
  | [] => false
  | (k, c) :: rest => k == key || hasKeyDeep key c || hasKeyKVs key rest
def hasKeyList (key : String) : List Json → Bool
  | [] => false
  | x :: rest => hasKeyDeep key x || hasKeyList key rest
end

/-- Whether `key` is absent everywhere strictly below the top level (a
top-level binding of an object is allowed). -/
def noKeyBelowTop (key : String) : Json → Bool
  | .obj kvs => kvs.all fun kv => !hasKeyDeep key kv.2
  | .arr xs => xs.all fun x => !hasKeyDeep key x
  | _ => true

/-- Strictly increasing keys of an association list. -/
def strictSortedKeys {α : Type} : List (String × α) → Bool
  | [] => true
  | [_] => true
  | a :: b :: rest => keyLt a.1 b.1 && strictSortedKeys (b :: rest)

/-- The top-level object (if any) is in canonical key-sorted form, as any
document re-parsed from `json.MarshalIndent` output is. -/
def topSorted : Json → Bool
  | .obj kvs => strictSortedKeys kvs
  | _ => true

/-- ASCII lower-casing of one character (`strings.ToLower` restricted to the
ASCII file names the walk encounters). -/
def lowerChar (c : Char) : Char :=
  if 'A' ≤ c ∧ c ≤ 'Z' then Char.ofNat (c.toNat + 32) else c

/-- Character-list test for `strings.HasSuffix`. -/
def isSuffixChars (pat s : List Char) : Bool :=
  isPrefixChars pat.reverse s.reverse

/-- The filter of `json_schema.go:40`: the lower-cased entry name ends in
`.json`. -/
def jsonNameOk (name : String) : Bool :=
  isSuffixChars ".json".data (name.data.map lowerChar)

/-- `filepath.ToSlash` on the slash-separated platform the generator runs on:
the identity. -/
def toSlash (p : String) : String := p

/-- One entry of the `fs.WalkDir` traversal, in walk order: its path, base
name, directory flag, any error reported by the walk itself for this entry,
the outcome of reading its bytes (bytes as a string), and the permission bits
`fs.Stat` reports (none when stat fails). -/
structure FsEntry where
  path : String
  name : String
  isDir : Bool
  walkErr : Option String
  readRes : Except String String
  statPerm : Option Nat

/-- The external collaborators of the batch orchestrator: the JSON codec
(`json.Unmarshal` / `json.MarshalIndent`, external library code), the optional
write-back capability of the filesystem, and the fuel given to the inliner. -/
structure BatchEnv where
  parse : String → Except String Json
  marshal : Json → String
  write : Option (String → String → Nat → Except String Unit)
  fuel : Nat

/-- The body of the `fs.WalkDir` callback, `json_schema.go:33-87`, for one
entry: `none` when the entry is skipped (a directory, or not a `*.json` name),
otherwise the contextualized error or the `(slash path, output bytes)` record.
Reading, parsing, inlining and writing failures are wrapped with the file
path exactly as the source's `fmt.Errorf` calls do.  (The source stores the
record into the updates map just before attempting the write-back; since the
whole map is discarded on error, performing the write first is observationally
identical.) -/
def procEntry (env : BatchEnv) (e : FsEntry) : Option (Res (String × String)) :=
  match e.walkErr with
  | some w => some (.err w)
  | none =>
    if e.isDir then none
    else if !jsonNameOk e.name then none
    else
      match e.readRes with
      | .error err => some (.err ("read " ++ e.path ++ ": " ++ err))
      | .ok b =>
        match env.parse b with
        | .error err => some (.err ("parse " ++ e.path ++ ": " ++ err))
        | .ok root =>
          match inlineRefs env.fuel root root [] with
          | .err err => some (.err ("inline refs in " ++ e.path ++ ": " ++ err))
          | .fuelOut => some .fuelOut
          | .ok resolved =>
            let out := env.marshal (stripKeys resolved true) ++ "\n"
            match env.write with
            | none => some (.ok (toSlash e.path, out))
            | some w =>
              match w e.path out (e.statPerm.getD 0o644) with
              | .error err => some (.err ("write " ++ e.path ++ ": " ++ err))
              | .ok _ => some (.ok (toSlash e.path, out))

/-- The walk of `InlineBundledSchemasInFS`: entries are processed in walk
order, accumulating the updates map; the first error terminates the walk. -/
def runBatch (env : BatchEnv) : List FsEntry → List (String × String) →
    Res (List (String × String))
  | [], acc => .ok acc
  | e :: rest, acc =>
    match procEntry env e with
    | none => runBatch env rest acc
    | some (.err m) => .err m
    | some .fuelOut => .fuelOut
    | some (.ok pb) => runBatch env rest (insertKV pb.1 pb.2 acc)

/-- The complete path-to-bytes mapping over a list of entries, ignoring
failures: what a completed walk accumulates. -/
def collectUpdates (env : BatchEnv) : List FsEntry → List (String × String) →
    List (String × String)
  | [], acc => acc
  | e :: rest, acc =>
    match procEntry env e with
    | some (.ok pb) => collectUpdates env rest (insertKV pb.1 pb.2 acc)
    | _ => collectUpdates env rest acc

/-- Whether an entry makes the walk abort (a Go error, or fuel exhaustion of
the embedding). -/
def entryBad (env : BatchEnv) (e : FsEntry) : Bool :=
  match procEntry env e with
  | some (.err _) => true
  | some .fuelOut => true
  | _ => false

/-- `InlineBundledSchemasInFS`, `json_schema.go:21-93`: walk the entries and
return the updates map, or the first error with no map at all
(`json_schema.go:89-91` discards the partial map). -/
def InlineBundledSchemasInFS (env : BatchEnv) (entries : List FsEntry) :
    Res (List (String × String)) :=
  runBatch env entries []

/-- The spec's reference-inlining example document. -/
def docC1 : Json :=
  .obj [("$defs", .obj [("A", .obj [("type", .str "string")])]),
        ("value", .obj [("$ref", .str "#/$defs/A")])]

/-- The spec's sibling-override example document. -/
def docC2 : Json :=
  .obj [("$defs", .obj [("A", .obj [("title", .str "x"), ("type", .str "string")])]),
        ("value", .obj [("$ref", .str "#/$defs/A"), ("title", .str "y")])]

/-- The spec's key-stripping example document. -/
def docC3 : Json :=
  .obj [("$id", .str "I"), ("$schema", .str "S"),
        ("a", .obj [("$id", .str "J"), ("$schema", .str "T")])]

/-- The spec's cycle-detection example document. -/
def docC5 : Json :=
  .obj [("$defs", .obj [("A", .obj [("$ref", .str "#/$defs/B")]),
                        ("B", .obj [("$ref", .str "#/$defs/A")])]),
        ("value", .obj [("$ref", .str "#/$defs/A")])]

/-- The spec's missing-pointer-target example document. -/
def docC6 : Json :=
  .obj [("value", .obj [("$ref", .str "#/$defs/Missing")])]

/-- The spec's pointer-escaping example document: a `$defs` key literally
named `a/b`. -/
def docC8 : Json :=
  .obj [("$defs", .obj [("a/b", .obj [("type", .str "string")])]),
        ("value", .obj [("$ref", .str "#/$defs/a~1b")])]

/-- A `$ref` to a scalar target whose sibling carries an unresolvable `$ref`. -/
def docC10bad : Json :=
  .obj [("$defs", .obj [("A", .str "scalar")]),
        ("value", .obj [("$ref", .str "#/$defs/A"),
                        ("extra", .obj [("$ref", .str "#/nope")])])]

/-- The same document with an innocuous sibling instead. -/
def docC10good : Json :=
  .obj [("$defs", .obj [("A", .str "scalar")]),
        ("value", .obj [("$ref", .str "#/$defs/A"), ("extra", .bool true)])]

/-! ### Basic lemmas about the embedding -/

theorem containsGo_iff (l : List String) (s : String) :
    containsGo l s = true ↔ s ∈ l := by
  induction l with
  | nil => simp [containsGo]
  | cons x rest ih =>
    by_cases h : x = s
    · subst h; simp [containsGo]
    · rw [containsGo, if_neg h, ih, List.mem_cons]
      constructor
      · exact fun hm => Or.inr hm
      · rintro (h1 | hm)
        · exact absurd h1.symm h
        · exact hm

theorem jsize_pos (t : Json) : 1 ≤ jsize t := by
  cases t <;> simp [jsize]

theorem jsize_mem_kvs : ∀ (kvs : List (String × Json)) (kv : String × Json),
    kv ∈ kvs → jsize kv.2 ≤ jsizeKVs kvs := by
  intro kvs
  induction kvs with
  | nil => intro kv h; cases h
  | cons a rest ih =>
    intro kv h
    rcases List.mem_cons.mp h with h1 | hm
    · subst h1; rw [jsizeKVs]; omega
    · have := ih kv hm; rw [jsizeKVs]; omega

theorem jsize_mem_list : ∀ (xs : List Json) (x : Json),
    x ∈ xs → jsize x ≤ jsizeList xs := by
  intro xs
  induction xs with
  | nil => intro x h; cases h
  | cons a rest ih =>
    intro x h
    rcases List.mem_cons.mp h with h1 | hm
    · subst h1; rw [jsizeList]; omega
    · have := ih x hm; rw [jsizeList]; omega

theorem hasKeyKVs_false {key : String} : ∀ {kvs : List (String × Json)},
    hasKeyKVs key kvs = false →
    ∀ kv ∈ kvs, kv.1 ≠ key ∧ hasKeyDeep key kv.2 = false := by
  intro kvs
  induction kvs with
  | nil => intro _ kv h; cases h
  | cons a rest ih =>
    obtain ⟨k, c⟩ := a
    intro h kv hm
    rw [hasKeyKVs] at h
    simp only [Bool.or_eq_false_iff, beq_eq_false_iff_ne] at h
    obtain ⟨⟨hk, hc⟩, hr⟩ := h
    rcases List.mem_cons.mp hm with h1 | hm2
    · subst h1; exact ⟨hk, hc⟩
    · exact ih hr kv hm2

theorem hasKeyList_false {key : String} : ∀ {xs : List Json},
    hasKeyList key xs = false → ∀ x ∈ xs, hasKeyDeep key x = false := by
  intro xs
  induction xs with
  | nil => intro _ x h; cases h
  | cons a rest ih =>
    intro h x hm
    rw [hasKeyList] at h
    simp only [Bool.or_eq_false_iff] at h
    rcases List.mem_cons.mp hm with h1 | hm2
    · subst h1; exact h.1
    · exact ih h.2 x hm2

theorem lookupKV_eq_none {α : Type} : ∀ {l : List (String × α)} {key : String},
    (∀ kv ∈ l, kv.1 ≠ key) → lookupKV l key = none := by
  intro l
  induction l with
  | nil => intro key _; rfl
  | cons a rest ih =>
    obtain ⟨k, v⟩ := a
    intro key h
    rw [lookupKV, if_neg (h (k, v) (List.mem_cons_self _ _))]
    exact ih fun kv hm => h kv (List.mem_cons_of_mem _ hm)

theorem lookupKV_none_forall {α : Type} : ∀ {l : List (String × α)} {key : String},
    lookupKV l key = none → ∀ kv ∈ l, kv.1 ≠ key := by
  intro l
  induction l with
  | nil => intro key _ kv h; cases h
  | cons a rest ih =>
    obtain ⟨k, v⟩ := a
    intro key h kv hm
    rw [lookupKV] at h
    by_cases hk : k = key
    · rw [if_pos hk] at h; cases h
    · rw [if_neg hk] at h
      rcases List.mem_cons.mp hm with h1 | hm2
      · subst h1; exact hk
      · exact ih h kv hm2

theorem lookupKV_some_mem {α : Type} : ∀ {l : List (String × α)} {key : String} {v : α},
    lookupKV l key = some v → (key, v) ∈ l := by
  intro l
  induction l with
  | nil => intro key v h; cases h
  | cons a rest ih =>
    obtain ⟨k, w⟩ := a
    intro key v h
    rw [lookupKV] at h
    by_cases hk : k = key
    · rw [if_pos hk] at h
      injection h with hv
      subst hk; subst hv
      exact List.mem_cons_self _ _
    · rw [if_neg hk] at h
      exact List.mem_cons_of_mem _ (ih h)

theorem lookupKV_not_mem_keys {α : Type} {l : List (String × α)} {key : String}
    (hk : key ∉ l.map Prod.fst) : lookupKV l key = none :=
  lookupKV_eq_none fun _ hm he => hk (he ▸ List.mem_map_of_mem Prod.fst hm)

/-! ### The key order -/

theorem charsLt_irrefl : ∀ l : List Char, charsLt l l = false := by
  intro l
  induction l with
  | nil => rfl
  | cons a as ih => simp [charsLt, ih]

theorem charsLt_asymm : ∀ a b : List Char, charsLt a b = true → charsLt b a = false := by
  intro a
  induction a with
  | nil =>
    intro b h
    cases b with
    | nil => simp [charsLt] at h
    | cons y ys => rfl
  | cons x xs ih =>
    intro b h
    cases b with
    | nil => simp [charsLt] at h
    | cons y ys =>
      rw [charsLt] at h
      rcases Nat.lt_trichotomy x.toNat y.toNat with hlt | heq | hgt
      · rw [charsLt, if_neg (Nat.lt_asymm hlt), if_pos hlt]
      · rw [if_neg (heq ▸ Nat.lt_irrefl _), if_neg (heq ▸ Nat.lt_irrefl _)] at h
        rw [charsLt, if_neg (heq ▸ Nat.lt_irrefl _), if_neg (heq ▸ Nat.lt_irrefl _)]
        exact ih ys h
      · rw [if_neg (Nat.lt_asymm hgt), if_pos hgt] at h
        cases h

theorem charsLt_trans : ∀ a b c : List Char,
    charsLt a b = true → charsLt b c = true → charsLt a c = true := by
  intro a
  induction a with
  | nil =>
    intro b c h1 h2
    cases b with
    | nil => simp [charsLt] at h1
    | cons y ys =>
      cases c with
      | nil => simp [charsLt] at h2
      | cons z zs => rfl
  | cons x xs ih =>
    intro b c h1 h2
    cases b with
    | nil => simp [charsLt] at h1
    | cons y ys =>
      cases c with
      | nil => simp [charsLt] at h2
      | cons z zs =>
        rw [charsLt] at h1 h2 ⊢
        rcases Nat.lt_trichotomy x.toNat y.toNat with hxy | hxy | hxy
        · rcases Nat.lt_trichotomy y.toNat z.toNat with hyz | hyz | hyz
          · rw [if_pos (Nat.lt_trans hxy hyz)]
          · rw [if_pos (hyz ▸ hxy)]
          · rw [if_neg (Nat.lt_asymm hyz), if_pos hyz] at h2; cases h2
        · rw [if_neg (hxy ▸ Nat.lt_irrefl _), if_neg (hxy ▸ Nat.lt_irrefl _)] at h1
          rcases Nat.lt_trichotomy y.toNat z.toNat with hyz | hyz | hyz
          · rw [if_pos (hxy ▸ hyz)]
          · rw [if_neg (hyz ▸ hxy ▸ Nat.lt_irrefl _), if_neg (hyz ▸ hxy ▸ Nat.lt_irrefl _)]
            rw [if_neg (hyz ▸ Nat.lt_irrefl _), if_neg (hyz ▸ Nat.lt_irrefl _)] at h2
            exact ih ys zs h1 h2
          · rw [if_neg (Nat.lt_asymm hyz), if_pos hyz] at h2; cases h2
        · rw [if_neg (Nat.lt_asymm hxy), if_pos hxy] at h1; cases h1

theorem keyLt_irrefl (a : String) : keyLt a a = false := charsLt_irrefl a.data

theorem keyLt_asymm {a b : String} (h : keyLt a b = true) : keyLt b a = false :=
  charsLt_asymm a.data b.data h

theorem keyLt_trans {a b c : String} (h1 : keyLt a b = true) (h2 : keyLt b c = true) :
    keyLt a c = true := charsLt_trans a.data b.data c.data h1 h2

theorem keyLt_ne {a b : String} (h : keyLt a b = true) : a ≠ b := by
  intro he
  subst he
  rw [keyLt_irrefl a] at h
  cases h

/-! ### Sorted insertion -/

theorem strictSortedKeys_tail {α : Type} {a : String × α} {rest : List (String × α)}
    (h : strictSortedKeys (a :: rest) = true) : strictSortedKeys rest = true := by
  cases rest with
  | nil => rfl
  | cons b r =>
    rw [strictSortedKeys, Bool.and_eq_true] at h
    exact h.2

theorem sorted_head_lt {α : Type} : ∀ (rest : List (String × α)) (k0 : String) (v0 : α),
    strictSortedKeys ((k0, v0) :: rest) = true → ∀ kv ∈ rest, keyLt k0 kv.1 = true := by
  intro rest
  induction rest with
  | nil => intro k0 v0 _ kv hm; cases hm
  | cons b r ih =>
    obtain ⟨k1, v1⟩ := b
    intro k0 v0 h kv hm
    rw [strictSortedKeys, Bool.and_eq_true] at h
    obtain ⟨h1, h2⟩ := h
    rcases List.mem_cons.mp hm with he | hm2
    · subst he; exact h1
    · exact keyLt_trans h1 (ih k1 v1 h2 kv hm2)

theorem insertKV_head_lt {α : Type} (k : String) (v : α) : ∀ (l : List (String × α)),
    (∀ kv ∈ l, keyLt k kv.1 = true) → insertKV k v l = (k, v) :: l := by
  intro l h
  cases l with
  | nil => rfl
  | cons b r =>
    obtain ⟨k1, v1⟩ := b
    have h1 : keyLt k k1 = true := h (k1, v1) (List.mem_cons_self _ _)
    rw [insertKV, if_neg (keyLt_ne h1), if_pos h1]

theorem insertKV_filter_restore {α : Type} : ∀ (kvs : List (String × α)) (k : String) (v : α),
    strictSortedKeys kvs = true → lookupKV kvs k = some v →
    insertKV k v (kvs.filter fun kv => kv.1 != k) = kvs := by
  intro kvs
  induction kvs with
  | nil => intro k v _ h; cases h
  | cons a rest ih =>
    obtain ⟨k0, v0⟩ := a
    intro k v hs hl
    have hrest : ∀ kv ∈ rest, keyLt k0 kv.1 = true := sorted_head_lt rest k0 v0 hs
    by_cases hk : k0 = k
    · subst hk
      rw [lookupKV, if_pos rfl] at hl
      injection hl with hv
      subst hv
      have hne : ∀ kv ∈ rest, (kv.1 != k0) = true := fun kv hm => by
        simpa using (keyLt_ne (hrest kv hm)).symm
      rw [List.filter_cons_of_neg (by simp), List.filter_eq_self.mpr hne]
      exact insertKV_head_lt k0 v0 rest hrest
    · rw [lookupKV, if_neg hk] at hl
      have hmem : (k, v) ∈ rest := lookupKV_some_mem hl
      have hk0k : keyLt k0 k = true := hrest (k, v) hmem
      have hnotlt : ¬ (keyLt k k0 = true) := by
        rw [keyLt_asymm hk0k]; exact Bool.false_ne_true
      rw [List.filter_cons_of_pos (by simpa using hk), insertKV,
        if_neg fun he => hk he.symm, if_neg hnotlt]
      exact congrArg ((k0, v0) :: ·) (ih k v (strictSortedKeys_tail hs) hl)

theorem lookupKV_insertKV {α : Type} (k : String) (v : α) : ∀ (l : List (String × α)) (q : String),
    lookupKV (insertKV k v l) q = if q = k then some v else lookupKV l q := by
  intro l
  induction l with
  | nil =>
    intro q
    by_cases hq : q = k
    · subst hq; simp [insertKV, lookupKV]
    · have hq2 : ¬ k = q := fun he => hq he.symm
      simp [insertKV, lookupKV, hq, hq2]
  | cons a r ih =>
    obtain ⟨k2, v2⟩ := a
    intro q
    by_cases hk : k = k2
    · subst hk
      by_cases hq : q = k
      · subst hq; simp [insertKV, lookupKV]
      · have hq2 : ¬ k = q := fun he => hq he.symm
        simp [insertKV, lookupKV, hq, hq2]
    · by_cases hlt : keyLt k k2 = true
      · by_cases hq : q = k
        · subst hq; simp [insertKV, lookupKV, hk, hlt]
        · have hq2 : ¬ k = q := fun he => hq he.symm
          simp [insertKV, lookupKV, hk, hlt, hq, hq2]
      · by_cases hq : q = k
        · have hq2 : ¬ k2 = k := fun he => hk he.symm
          simp [insertKV, lookupKV, hk, hlt, hq, hq2, ih]
        · have hq2 : ¬ k = q := fun he => hq he.symm
          simp [insertKV, lookupKV, hk, hlt, hq, ih]

theorem lookupKV_foldl_insert {α : Type} : ∀ (sib base : List (String × α)) (q : String),
    (sib.map Prod.fst).Nodup →
    lookupKV (sib.foldl (fun acc kv => insertKV kv.1 kv.2 acc) base) q
      = (match lookupKV sib q with
         | some w => some w
         | none => lookupKV base q) := by
  intro sib
  induction sib with
  | nil => intro base q _; rfl
  | cons a rest ih =>
    obtain ⟨k1, v1⟩ := a
    intro base q hnd
    simp only [List.map_cons, List.nodup_cons] at hnd
    obtain ⟨hk1, hnd2⟩ := hnd
    rw [List.foldl_cons, ih (insertKV k1 v1 base) q hnd2]
    by_cases hq : q = k1
    · subst hq
      rw [lookupKV_not_mem_keys hk1, lookupKV, if_pos rfl, lookupKV_insertKV, if_pos rfl]
    · rw [lookupKV, if_neg fun he => hq he.symm]
      cases hrq : lookupKV rest q with
      | some w => rfl
      | none => rw [lookupKV_insertKV, if_neg hq]

theorem lookupKV_filter_ne {α : Type} (key : String) :
    ∀ (l : List (String × α)) (q : String),
    lookupKV (l.filter fun kv => kv.1 != key) q = if q = key then none else lookupKV l q := by
  intro l
  induction l with
  | nil =>
    intro q
    by_cases hq : q = key
    · rw [if_pos hq]; rfl
    · rw [if_neg hq]; rfl
  | cons a r ih =>
    obtain ⟨k, v⟩ := a
    intro q
    by_cases hk : k = key
    · subst hk
      rw [List.filter_cons_of_neg (by simp), ih q, lookupKV]
      by_cases hq : q = k
      · subst hq; rw [if_pos rfl, if_pos rfl]
      · rw [if_neg hq, if_neg hq, if_neg fun he => hq he.symm]
    · rw [List.filter_cons_of_pos (by simpa using hk), lookupKV]
      by_cases hq2 : k = q
      · subst hq2
        rw [if_neg fun he => hk he, if_pos rfl, lookupKV, if_pos rfl]
      · rw [if_neg hq2, ih q, lookupKV, if_neg hq2]

/-- The lookup-level description of `mergeObj`: a sibling binding wins, a
`$defs` binding of the target is dropped, any other target binding survives. -/
theorem lookupKV_mergeObj (rm sib : List (String × Json)) (q : String)
    (hnd : (sib.map Prod.fst).Nodup) :
    lookupKV (mergeObj rm sib) q
      = (match lookupKV sib q with
         | some w => some w
         | none => if q = "$defs" then none else lookupKV rm q) := by
  rw [mergeObj, lookupKV_foldl_insert _ _ _ hnd]
  cases lookupKV sib q with
  | some w => rfl
  | none => rw [lookupKV_filter_ne]

/-! ### Identity and removal lemmas for the inliner and the stripper -/

theorem inlineKVs_keys (f : Json → Res Json) : ∀ (kvs out : List (String × Json)),
    inlineKVs f kvs = .ok out → out.map Prod.fst = kvs.map Prod.fst := by
  intro kvs
  induction kvs with
  | nil => intro out h; injection h with h; subst h; rfl
  | cons a r ih =>
    obtain ⟨k, c⟩ := a
    intro out h
    rw [inlineKVs] at h
    cases hfc : f c with
    | ok rc =>
      rw [hfc, Res.bind] at h
      cases hr : inlineKVs f r with
      | ok rs =>
        rw [hr, Res.bind] at h
        injection h with h
        subst h
        simp [ih rs hr]
      | err m => rw [hr] at h; cases h
      | fuelOut => rw [hr] at h; cases h
    | err m => rw [hfc] at h; cases h
    | fuelOut => rw [hfc] at h; cases h

theorem inlineKVs_id (f : Json → Res Json) : ∀ (kvs : List (String × Json)),
    (∀ kv ∈ kvs, f kv.2 = .ok kv.2) → inlineKVs f kvs = .ok kvs := by
  intro kvs
  induction kvs with
  | nil => intro _; rfl
  | cons a r ih =>
    obtain ⟨k, c⟩ := a
    intro h
    rw [inlineKVs, h (k, c) (List.mem_cons_self _ _), Res.bind,
      ih fun kv hm => h kv (List.mem_cons_of_mem _ hm), Res.bind]

theorem inlineList_id (f : Json → Res Json) : ∀ (xs : List Json),
    (∀ x ∈ xs, f x = .ok x) → inlineList f xs = .ok xs := by
  intro xs
  induction xs with
  | nil => intro _; rfl
  | cons a r ih =>
    intro h
    rw [inlineList, h a (List.mem_cons_self _ _), Res.bind,
      ih fun x hm => h x (List.mem_cons_of_mem _ hm), Res.bind]

theorem inlineRefs_id : ∀ (fuel : Nat) (t root : Json) (stack : List String),
    jsize t ≤ fuel → hasKeyDeep "$ref" t = false → hasKeyDeep "$defs" t = false →
    inlineRefs fuel t root stack = .ok t := by
  intro fuel
  induction fuel with
  | zero =>
    intro t root stack hsz _ _
    exact absurd (jsize_pos t) (by omega)
  | succ n ih =>
    intro t root stack hsz h1 h2
    cases t with
    | null => rfl
    | bool b => rfl
    | num m => rfl
    | str s => rfl
    | obj kvs =>
      rw [hasKeyDeep] at h1 h2
      have hfacts1 := hasKeyKVs_false h1
      have hfacts2 := hasKeyKVs_false h2
      have hlk : lookupKV kvs "$ref" = none :=
        lookupKV_eq_none fun kv hm => (hfacts1 kv hm).1
      have hfe : (kvs.filter fun kv => kv.1 != "$defs") = kvs :=
        List.filter_eq_self.mpr fun kv hm => by simpa using (hfacts2 kv hm).1
      rw [jsize] at hsz
      have hkvs : inlineKVs (fun c => inlineRefs n c root stack) kvs = .ok kvs :=
        inlineKVs_id _ kvs fun kv hm =>
          ih kv.2 root stack
            (by have := jsize_mem_kvs kvs kv hm; omega)
            (hfacts1 kv hm).2 (hfacts2 kv hm).2
      simp only [inlineRefs, hlk, hfe, hkvs, Res.bind]
    | arr xs =>
      rw [hasKeyDeep] at h1 h2
      have hfacts1 := hasKeyList_false h1
      have hfacts2 := hasKeyList_false h2
      rw [jsize] at hsz
      have hxs : inlineList (fun c => inlineRefs n c root stack) xs = .ok xs :=
        inlineList_id _ xs fun x hm =>
          ih x root stack
            (by have := jsize_mem_list xs x hm; omega)
            (hfacts1 x hm) (hfacts2 x hm)
      simp only [inlineRefs, hxs, Res.bind]

theorem stripKVs_id : ∀ (kvs : List (String × Json)),
    (∀ kv ∈ kvs, stripKeysRecursive kv.2 = kv.2) →
    (∀ kv ∈ kvs, ¬(kv.1 = "$id" ∨ kv.1 = "$defs" ∨ kv.1 = "$schema")) →
    stripKVs kvs = kvs := by
  intro kvs
  induction kvs with
  | nil => intro _ _; rfl
  | cons a r ih =>
    obtain ⟨k, c⟩ := a
    intro hrec hkeys
    rw [stripKVs, if_neg (hkeys (k, c) (List.mem_cons_self _ _)),
      hrec (k, c) (List.mem_cons_self _ _),
      ih (fun kv hm => hrec kv (List.mem_cons_of_mem _ hm))
        (fun kv hm => hkeys kv (List.mem_cons_of_mem _ hm))]

theorem stripList_id : ∀ (xs : List Json),
    (∀ x ∈ xs, stripKeysRecursive x = x) → stripList xs = xs := by
  intro xs
  induction xs with
  | nil => intro _; rfl
  | cons a r ih =>
    intro h
    rw [stripList, h a (List.mem_cons_self _ _),
      ih fun x hm => h x (List.mem_cons_of_mem _ hm)]

theorem stripKeysRecursive_id : ∀ (n : Nat) (t : Json), jsize t ≤ n →
    hasKeyDeep "$id" t = false → hasKeyDeep "$defs" t = false →
    hasKeyDeep "$schema" t = false →
    stripKeysRecursive t = t := by
  intro n
  induction n with
  | zero =>
    intro t hsz _ _ _
    exact absurd (jsize_pos t) (by omega)
  | succ m ih =>
    intro t hsz h1 h2 h3
    cases t with
    | null => rfl
    | bool b => rfl
    | num q => rfl
    | str s => rfl
    | obj kvs =>
      rw [hasKeyDeep] at h1 h2 h3
      have f1 := hasKeyKVs_false h1
      have f2 := hasKeyKVs_false h2
      have f3 := hasKeyKVs_false h3
      rw [jsize] at hsz
      rw [stripKeysRecursive,
        stripKVs_id kvs
          (fun kv hm =>
            ih kv.2 (by have := jsize_mem_kvs kvs kv hm; omega)
              (f1 kv hm).2 (f2 kv hm).2 (f3 kv hm).2)
          (fun kv hm => by
            rintro (he | he | he)
            · exact (f1 kv hm).1 he
            · exact (f2 kv hm).1 he
            · exact (f3 kv hm).1 he)]
    | arr xs =>
      rw [hasKeyDeep] at h1 h2 h3
      have f1 := hasKeyList_false h1
      have f2 := hasKeyList_false h2
      have f3 := hasKeyList_false h3
      rw [jsize] at hsz
      rw [stripKeysRecursive,
        stripList_id xs fun x hm =>
          ih x (by have := jsize_mem_list xs x hm; omega)
            (f1 x hm) (f2 x hm) (f3 x hm)]

theorem hasKeyKVs_stripKVs {key : String}
    (hb : key = "$id" ∨ key = "$defs" ∨ key = "$schema") :
    ∀ (kvs : List (String × Json)),
    (∀ kv ∈ kvs, hasKeyDeep key (stripKeysRecursive kv.2) = false) →
    hasKeyKVs key (stripKVs kvs) = false := by
  intro kvs
  induction kvs with
  | nil => intro _; rfl
  | cons a r ih =>
    obtain ⟨k, c⟩ := a
    intro h
    rw [stripKVs]
    by_cases hk : k = "$id" ∨ k = "$defs" ∨ k = "$schema"
    · rw [if_pos hk]
      exact ih fun kv hm => h kv (List.mem_cons_of_mem _ hm)
    · rw [if_neg hk, hasKeyKVs]
      have hkne : (k == key) = false := by
        rcases hb with hb | hb | hb <;> subst hb <;>
          simp only [beq_eq_false_iff_ne] <;> exact fun he => hk (by simp [he])
      rw [hkne, h (k, c) (List.mem_cons_self _ _),
        ih fun kv hm => h kv (List.mem_cons_of_mem _ hm)]
      rfl

theorem hasKeyList_stripList {key : String} :
    ∀ (xs : List Json),
    (∀ x ∈ xs, hasKeyDeep key (stripKeysRecursive x) = false) →
    hasKeyList key (stripList xs) = false := by
  intro xs
  induction xs with
  | nil => intro _; rfl
  | cons a r ih =>
    intro h
    rw [stripList, hasKeyList, h a (List.mem_cons_self _ _),
      ih fun x hm => h x (List.mem_cons_of_mem _ hm)]
    rfl

theorem strip_removes : ∀ (n : Nat) (t : Json) (key : String), jsize t ≤ n →
    (key = "$id" ∨ key = "$defs" ∨ key = "$schema") →
    hasKeyDeep key (stripKeysRecursive t) = false := by
  intro n
  induction n with
  | zero =>
    intro t key hsz _
    exact absurd (jsize_pos t) (by omega)
  | succ m ih =>
    intro t key hsz hb
    cases t with
    | null => rfl
    | bool b => rfl
    | num q => rfl
    | str s => rfl
    | obj kvs =>
      rw [jsize] at hsz
      rw [stripKeysRecursive, hasKeyDeep]
      exact hasKeyKVs_stripKVs hb kvs fun kv hm =>
        ih kv.2 key (by have := jsize_mem_kvs kvs kv hm; omega) hb
    | arr xs =>
      rw [jsize] at hsz
      rw [stripKeysRecursive, hasKeyDeep]
      exact hasKeyList_stripList xs fun x hm =>
        ih x key (by have := jsize_mem_list xs x hm; omega) hb

theorem stripKVs_filter_schema : ∀ (kvs : List (String × Json)),
    (∀ kv ∈ kvs, stripKeysRecursive kv.2 = kv.2) →
    (∀ kv ∈ kvs, kv.1 ≠ "$id" ∧ kv.1 ≠ "$defs") →
    stripKVs kvs = kvs.filter fun kv => kv.1 != "$schema" := by
  intro kvs
  induction kvs with
  | nil => intro _ _; rfl
  | cons a r ih =>
    obtain ⟨k, c⟩ := a
    intro hrec hkeys
    have htail := ih (fun kv hm => hrec kv (List.mem_cons_of_mem _ hm))
      (fun kv hm => hkeys kv (List.mem_cons_of_mem _ hm))
    by_cases hk : k = "$schema"
    · subst hk
      rw [stripKVs, if_pos (by simp), htail, List.filter_cons_of_neg (by simp)]
    · have hids := hkeys (k, c) (List.mem_cons_self _ _)
      have hnotin : ¬(k = "$id" ∨ k = "$defs" ∨ k = "$schema") := by
        rintro (he | he | he)
        · exact hids.1 he
        · exact hids.2 he
        · exact hk he
      rw [stripKVs, if_neg hnotin, hrec (k, c) (List.mem_cons_self _ _), htail,
        List.filter_cons_of_pos (by simpa using hk)]

/-! ### Shape lemmas for the stripper and the flattener -/

theorem stripKVs_keys_ok : ∀ (kvs : List (String × Json)) (kv : String × Json),
    kv ∈ stripKVs kvs → ¬(kv.1 = "$id" ∨ kv.1 = "$defs" ∨ kv.1 = "$schema") := by
  intro kvs
  induction kvs with
  | nil => intro kv h; cases h
  | cons a r ih =>
    obtain ⟨k, c⟩ := a
    intro kv h
    rw [stripKVs] at h
    by_cases hk : k = "$id" ∨ k = "$defs" ∨ k = "$schema"
    · rw [if_pos hk] at h
      exact ih kv h
    · rw [if_neg hk] at h
      rcases List.mem_cons.mp h with he | hm
      · subst he; exact hk
      · exact ih kv hm

theorem stripKeys_true_eq (x : Json) :
    stripKeys x true
      = (match topSchemaOf x with
         | some v =>
           (match stripKeysRecursive x with
            | .obj m2 => Json.obj (insertKV "$schema" v m2)
            | other => other)
         | none => stripKeysRecursive x) := rfl

theorem topSchemaOf_obj_none {kvs : List (String × Json)}
    (hl : lookupKV kvs "$schema" = none) : topSchemaOf (.obj kvs) = none := by
  rw [topSchemaOf, hl]

theorem topSchemaOf_obj_null {kvs : List (String × Json)} {w : Json}
    (hl : lookupKV kvs "$schema" = some w) (hw : isNullJ w = true) :
    topSchemaOf (.obj kvs) = none := by
  rw [topSchemaOf, hl]
  show (if isNullJ w then none else some w) = none
  rw [hw, if_pos rfl]

theorem topSchemaOf_obj_some {kvs : List (String × Json)} {w : Json}
    (hl : lookupKV kvs "$schema" = some w) (hw : isNullJ w = false) :
    topSchemaOf (.obj kvs) = some w := by
  rw [topSchemaOf, hl]
  show (if isNullJ w then none else some w) = some w
  rw [hw, if_neg Bool.false_ne_true]

theorem stripKeys_true_of_none {x : Json} (h : topSchemaOf x = none) :
    stripKeys x true = stripKeysRecursive x := by
  rw [stripKeys_true_eq, h]

theorem stripKeys_true_of_some_obj {x v : Json} {m2 : List (String × Json)}
    (h : topSchemaOf x = some v) (h2 : stripKeysRecursive x = .obj m2) :
    stripKeys x true = .obj (insertKV "$schema" v m2) := by
  rw [stripKeys_true_eq, h, h2]

theorem isNullJ_false_ne {w : Json} (hw : isNullJ w = false) : w ≠ .null := by
  intro he
  subst he
  cases hw

theorem isNullJ_of_ne {w : Json} (hw : w ≠ .null) : isNullJ w = false := by
  cases w with
  | null => exact absurd rfl hw
  | bool b => rfl
  | num q => rfl
  | str s => rfl
  | arr xs => rfl
  | obj kvs => rfl

/-- A top-level object produced by `stripKeys _ true` never carries a `null`
`$schema` binding: a captured `null` is never restored, and the recursive strip
leaves no `$schema` binding at all. -/
theorem stripKeys_top_ne_null {x : Json} {kvs : List (String × Json)}
    (h : stripKeys x true = .obj kvs) : lookupKV kvs "$schema" ≠ some .null := by
  have hclean : ∀ (m : List (String × Json)), stripKVs m = kvs →
      lookupKV kvs "$schema" ≠ some Json.null := by
    intro m hm
    subst hm
    rw [lookupKV_eq_none fun kv hm2 he => stripKVs_keys_ok m kv hm2 (Or.inr (Or.inr he))]
    exact fun hc => Option.noConfusion hc
  cases x with
  | null => exact absurd h Json.noConfusion
  | bool b => exact absurd h Json.noConfusion
  | num q => exact absurd h Json.noConfusion
  | str s => exact absurd h Json.noConfusion
  | arr xs =>
    rw [stripKeys_true_eq] at h
    exact absurd h Json.noConfusion
  | obj m =>
    cases hl : lookupKV m "$schema" with
    | none =>
      rw [stripKeys_true_of_none (topSchemaOf_obj_none hl), stripKeysRecursive] at h
      injection h with h
      exact hclean m h
    | some w =>
      by_cases hv : isNullJ w = true
      · rw [stripKeys_true_of_none (topSchemaOf_obj_null hl hv), stripKeysRecursive] at h
        injection h with h
        exact hclean m h
      · have hv2 : isNullJ w = false := by
          cases hb : isNullJ w
          · rfl
          · exact absurd hb hv
        rw [stripKeys_true_of_some_obj (topSchemaOf_obj_some hl hv2) rfl] at h
        injection h with h
        subst h
        rw [lookupKV_insertKV, if_pos rfl]
        intro hc
        exact isNullJ_false_ne hv2 (Option.some.inj hc)

theorem flattenDoc_ok_inv {fuel : Nat} {d r : Json} (h : flattenDoc fuel d = .ok r) :
    ∃ x, inlineRefs fuel d d [] = .ok x ∧ r = stripKeys x true := by
  rw [flattenDoc] at h
  cases hi : inlineRefs fuel d d [] with
  | ok x =>
    rw [hi] at h
    injection h with h
    exact ⟨x, rfl, h.symm⟩
  | err m => rw [hi] at h; exact absurd h Res.noConfusion
  | fuelOut => rw [hi] at h; exact absurd h Res.noConfusion

/-- `stripKeys _ true` is the identity on a tree that carries none of the
stripped keys below the top level, no `$id` or `$defs` at all, whose top-level
object (if any) is key-sorted, and whose top-level `$schema` (if any) is not
`null`. -/
theorem stripKeys_true_id (r : Json)
    (hsorted : topSorted r = true)
    (hid : hasKeyDeep "$id" r = false)
    (hdefs : hasKeyDeep "$defs" r = false)
    (hschema : noKeyBelowTop "$schema" r = true)
    (hnn : ∀ kvs, r = .obj kvs → lookupKV kvs "$schema" ≠ some .null) :
    stripKeys r true = r := by
  cases r with
  | null => rfl
  | bool b => rfl
  | num q => rfl
  | str s => rfl
  | arr xs =>
    rw [stripKeys_true_of_none (show topSchemaOf (.arr xs) = none from rfl),
      stripKeysRecursive]
    rw [hasKeyDeep] at hid hdefs
    rw [noKeyBelowTop] at hschema
    have hf1 := hasKeyList_false hid
    have hf2 := hasKeyList_false hdefs
    have hf3 : ∀ x ∈ xs, hasKeyDeep "$schema" x = false := by
      intro x hm
      have := List.all_eq_true.mp hschema x hm
      simpa using this
    rw [stripList_id xs fun x hm =>
      stripKeysRecursive_id (jsize x) x le_rfl (hf1 x hm) (hf2 x hm) (hf3 x hm)]
  | obj kvs =>
    rw [topSorted] at hsorted
    rw [hasKeyDeep] at hid hdefs
    rw [noKeyBelowTop] at hschema
    have f1 := hasKeyKVs_false hid
    have f2 := hasKeyKVs_false hdefs
    have f3 : ∀ kv ∈ kvs, hasKeyDeep "$schema" kv.2 = false := by
      intro kv hm
      have := List.all_eq_true.mp hschema kv hm
      simpa using this
    have hrec : ∀ kv ∈ kvs, stripKeysRecursive kv.2 = kv.2 := fun kv hm =>
      stripKeysRecursive_id (jsize kv.2) kv.2 le_rfl (f1 kv hm).2 (f2 kv hm).2 (f3 kv hm)
    have hfil : stripKVs kvs = kvs.filter fun kv => kv.1 != "$schema" :=
      stripKVs_filter_schema kvs hrec fun kv hm => ⟨(f1 kv hm).1, (f2 kv hm).1⟩
    cases hl : lookupKV kvs "$schema" with
    | none =>
      rw [stripKeys_true_of_none (topSchemaOf_obj_none hl), stripKeysRecursive, hfil,
        List.filter_eq_self.mpr fun kv hm => by
          simpa using lookupKV_none_forall hl kv hm]
    | some w =>
      have hwn : w ≠ .null := fun he => hnn kvs rfl (by rw [hl, he])
      rw [stripKeys_true_of_some_obj (topSchemaOf_obj_some hl (isNullJ_of_ne hwn))
        (show stripKeysRecursive (.obj kvs) = .obj (stripKVs kvs) from rfl)]
      rw [hfil, insertKV_filter_restore kvs "$schema" w hsorted hl]

/-! ### Batch-walk lemmas -/

theorem runBatch_err : ∀ (env : BatchEnv) (pre : List FsEntry) (post : List FsEntry)
    (e : FsEntry) (m : String) (acc : List (String × String)),
    (∀ x ∈ pre, entryBad env x = false) →
    procEntry env e = some (.err m) →
    runBatch env (pre ++ e :: post) acc = .err m := by
  intro env pre
  induction pre with
  | nil =>
    intro post e m acc _ hp
    rw [List.nil_append, runBatch, hp]
  | cons a r ih =>
    intro post e m acc hok hp
    have ha := hok a (List.mem_cons_self _ _)
    rw [entryBad] at ha
    rw [List.cons_append, runBatch]
    cases hpa : procEntry env a with
    | none =>
      exact ih post e m acc (fun x hx => hok x (List.mem_cons_of_mem _ hx)) hp
    | some res =>
      cases res with
      | ok pb =>
        exact ih post e m (insertKV pb.1 pb.2 acc)
          (fun x hx => hok x (List.mem_cons_of_mem _ hx)) hp
      | err mm => rw [hpa] at ha; exact Bool.noConfusion ha
      | fuelOut => rw [hpa] at ha; exact Bool.noConfusion ha

theorem runBatch_ok : ∀ (env : BatchEnv) (entries : List FsEntry)
    (acc : List (String × String)),
    (∀ x ∈ entries, entryBad env x = false) →
    runBatch env entries acc = .ok (collectUpdates env entries acc) := by
  intro env entries
  induction entries with
  | nil => intro acc _; rfl
  | cons a r ih =>
    intro acc hok
    have ha := hok a (List.mem_cons_self _ _)
    rw [entryBad] at ha
    rw [runBatch, collectUpdates]
    cases hpa : procEntry env a with
    | none =>
      exact ih acc fun x hx => hok x (List.mem_cons_of_mem _ hx)
    | some res =>
      cases res with
      | ok pb =>
        exact ih (insertKV pb.1 pb.2 acc) fun x hx => hok x (List.mem_cons_of_mem _ hx)
      | err mm => rw [hpa] at ha; exact Bool.noConfusion ha
      | fuelOut => rw [hpa] at ha; exact Bool.noConfusion ha

/-! ### The claims -/

/-- Claim C1: on the document `{"$defs":{"A":{"type":"string"}},"value":{"$ref":"#/$defs/A"}}`
the full flattening pipeline (reference inlining followed by key stripping)
produces `{"value":{"type":"string"}}`, a tree with no `$defs` and no `$ref`
binding at any level. -/
theorem claim_C1 :
    flattenDoc 10 docC1 = .ok (.obj [("value", .obj [("type", Json.str "string")])]) ∧
    hasKeyDeep "$defs" (.obj [("value", .obj [("type", Json.str "string")])]) = false ∧
    hasKeyDeep "$ref" (.obj [("value", .obj [("type", Json.str "string")])]) = false :=
  ⟨rfl, rfl, rfl⟩

/-- Claim C2: an object whose `$ref` pointer is not on the stack and whose
recursively-inlined target is an object is replaced by the merge of that
target with the recursively-inlined siblings (all keys except `$ref` and
`$defs`): a sibling binding overrides the same key of the target and a `$defs`
binding on the target side is dropped.  In particular the spec's
sibling-override document flattens to `{"value":{"title":"y","type":"string"}}`. -/
theorem claim_C2 :
    (∀ (fuel : Nat) (kvs : List (String × Json)) (root : Json) (stack : List String)
        (p : String) (tgt : Json) (rm sib : List (String × Json)),
      (kvs.map Prod.fst).Nodup →
      lookupKV kvs "$ref" = some (.str p) →
      p ∉ stack →
      getByPointer root p = .ok tgt →
      inlineRefs fuel (deepClone tgt) root (stack ++ [p]) = .ok (.obj rm) →
      inlineKVs (fun c => inlineRefs fuel c root stack)
          (kvs.filter fun kv => kv.1 != "$ref" && kv.1 != "$defs") = .ok sib →
      inlineRefs (fuel + 1) (.obj kvs) root stack = .ok (.obj (mergeObj rm sib)) ∧
        (∀ q, lookupKV (mergeObj rm sib) q
          = (match lookupKV sib q with
             | some w => some w
             | none => if q = "$defs" then none else lookupKV rm q))) ∧
    flattenDoc 10 docC2
      = .ok (.obj [("value", .obj [("title", Json.str "y"), ("type", Json.str "string")])]) := by
  constructor
  · intro fuel kvs root stack p tgt rm sib hnd hlk hst hgp hrt hsib
    have hcont : containsGo stack p = false := by
      cases hc : containsGo stack p
      · rfl
      · exact absurd ((containsGo_iff stack p).mp hc) hst
    constructor
    · simp only [inlineRefs, hlk, hcont, Bool.false_eq_true, if_false, hgp, hrt, hsib,
        Res.bind]
    · intro q
      have hkeys := inlineKVs_keys _ _ _ hsib
      have hndsib : (sib.map Prod.fst).Nodup := by
        rw [hkeys]
        exact List.Nodup.sublist (List.Sublist.map Prod.fst (List.filter_sublist _)) hnd
      exact lookupKV_mergeObj rm sib q hndsib
  · rfl

/-- Claim C2 witness: the general merge equation instantiated on a concrete
document, with the sibling `title` overriding the target. -/
theorem claim_C2_witness :
    inlineRefs 6 (.obj [("$ref", Json.str "#/a"), ("title", Json.str "y")])
        (.obj [("a", .obj [("type", Json.str "s")])]) []
      = .ok (.obj (mergeObj [("type", Json.str "s")] [("title", Json.str "y")])) ∧
    lookupKV (mergeObj [("type", Json.str "s")] [("title", Json.str "y")]) "title"
      = some (Json.str "y") := by
  have h := claim_C2.1 5 [("$ref", Json.str "#/a"), ("title", Json.str "y")]
      (.obj [("a", .obj [("type", Json.str "s")])]) [] "#/a" (.obj [("type", Json.str "s")])
      [("type", Json.str "s")] [("title", Json.str "y")]
      (by decide) rfl (by decide) rfl rfl rfl
  refine ⟨h.1, ?_⟩
  rw [h.2 "title"]
  rfl

/-- Claim C3 counterexample: the claim quantifies over every top-level object
containing the key `$schema`; for the input `{"$schema":null}` the key exists,
yet the output is `{}` with no `$schema` restored, because the Go code's
`topSchema != nil` test conflates a captured JSON `null` with an absent key. -/
theorem claim_C3_counterexample :
    lookupKV [("$schema", Json.null)] "$schema" = some Json.null ∧
    stripKeys (.obj [("$schema", Json.null)]) true = .obj [] ∧
    hasKeyDeep "$schema" (stripKeys (.obj [("$schema", Json.null)]) true) = false :=
  ⟨rfl, rfl, rfl⟩

/-- Claim C3 (amended): for a top-level object whose `$schema` binding has a
non-`null` value, the key-stripping pass with top-level preservation removes
every occurrence of `$id`, `$defs` and `$schema` at every nesting level and
then restores the original top-level `$schema` value onto the top-level
object; a top-level `$schema` whose value is JSON `null` is stripped and not
restored.  The spec's example
`{"$schema":"S","$id":"I","a":{"$id":"J","$schema":"T"}}` becomes
`{"$schema":"S","a":{}}`. -/
theorem claim_C3 :
    (∀ (kvs : List (String × Json)) (v : Json),
      lookupKV kvs "$schema" = some v → v ≠ .null →
      stripKeys (.obj kvs) true = .obj (insertKV "$schema" v (stripKVs kvs)) ∧
      hasKeyDeep "$id" (.obj (stripKVs kvs)) = false ∧
      hasKeyDeep "$defs" (.obj (stripKVs kvs)) = false ∧
      hasKeyDeep "$schema" (.obj (stripKVs kvs)) = false ∧
      lookupKV (insertKV "$schema" v (stripKVs kvs)) "$schema" = some v) ∧
    stripKeys docC3 true = .obj [("$schema", Json.str "S"), ("a", .obj [])] := by
  constructor
  · intro kvs v hl hv
    refine ⟨?_, ?_, ?_, ?_, ?_⟩
    · exact stripKeys_true_of_some_obj (topSchemaOf_obj_some hl (isNullJ_of_ne hv))
        (show stripKeysRecursive (.obj kvs) = .obj (stripKVs kvs) from rfl)
    · rw [show Json.obj (stripKVs kvs) = stripKeysRecursive (.obj kvs) from rfl]
      exact strip_removes (jsize (.obj kvs)) _ "$id" le_rfl (Or.inl rfl)
    · rw [show Json.obj (stripKVs kvs) = stripKeysRecursive (.obj kvs) from rfl]
      exact strip_removes (jsize (.obj kvs)) _ "$defs" le_rfl (Or.inr (Or.inl rfl))
    · rw [show Json.obj (stripKVs kvs) = stripKeysRecursive (.obj kvs) from rfl]
      exact strip_removes (jsize (.obj kvs)) _ "$schema" le_rfl (Or.inr (Or.inr rfl))
    · rw [lookupKV_insertKV, if_pos rfl]
  · rfl

/-- Claim C3 witness: the amended statement instantiated on a small document
with a string-valued top-level `$schema`. -/
theorem claim_C3_witness :
    stripKeys (.obj [("$schema", Json.str "S"), ("a", Json.str "b")]) true
      = .obj [("$schema", Json.str "S"), ("a", Json.str "b")] ∧
    lookupKV (insertKV "$schema" (Json.str "S")
        (stripKVs [("$schema", Json.str "S"), ("a", Json.str "b")])) "$schema"
      = some (Json.str "S") := by
  have h := claim_C3.1 [("$schema", Json.str "S"), ("a", Json.str "b")] (Json.str "S")
    rfl (fun he => Json.noConfusion he)
  exact ⟨h.1, h.2.2.2.2⟩

/-- Claim C4: the flattener is idempotent on its own output.  If one pass
produced `r` and `r` contains no `$ref`, no `$defs`, no `$id`, and no
`$schema` below the top level, then a second pass maps `r` to itself (hence
re-serialization is byte-identical).  The key-sortedness hypothesis on the
top-level object is what re-parsing the serialized output guarantees, and the
fuel hypothesis is the embedding's recursion budget. -/
theorem claim_C4 (f fuel : Nat) (d r : Json)
    (hrun : flattenDoc f d = .ok r)
    (hsorted : topSorted r = true)
    (href : hasKeyDeep "$ref" r = false)
    (hdefs : hasKeyDeep "$defs" r = false)
    (hid : hasKeyDeep "$id" r = false)
    (hschema : noKeyBelowTop "$schema" r = true)
    (hfuel : jsize r ≤ fuel) :
    flattenDoc fuel r = .ok r := by
  have hnn : ∀ kvs, r = .obj kvs → lookupKV kvs "$schema" ≠ some .null := by
    intro kvs he
    obtain ⟨x, hx, hr⟩ := flattenDoc_ok_inv hrun
    exact stripKeys_top_ne_null (hr.symm.trans he)
  rw [flattenDoc, inlineRefs_id fuel r r [] hfuel href hdefs]
  show Res.ok (stripKeys r true) = .ok r
  rw [stripKeys_true_id r hsorted hid hdefs hschema hnn]

/-- Claim C4 witness: the pipeline's output for the spec's inlining example is
a fixed point of a second pass. -/
theorem claim_C4_witness :
    flattenDoc 20 (.obj [("value", .obj [("type", Json.str "string")])])
      = .ok (.obj [("value", .obj [("type", Json.str "string")])]) :=
  claim_C4 10 20 docC1 (.obj [("value", .obj [("type", Json.str "string")])])
    rfl rfl rfl rfl rfl rfl (by decide)

/-- Claim C5: an object whose `$ref` pointer already appears on the resolution
stack makes inlining fail with the cyclic-reference error whose message is the
full chain (the stack followed by the current pointer, joined by `" -> "`);
in particular the spec's two-definition cycle document fails with exactly that
error. -/
theorem claim_C5 :
    (∀ (fuel : Nat) (kvs : List (String × Json)) (root : Json) (stack : List String)
        (p : String),
      lookupKV kvs "$ref" = some (.str p) → p ∈ stack →
      inlineRefs (fuel + 1) (.obj kvs) root stack = .err (cyclicMsg stack p)) ∧
    flattenDoc 10 docC5 = .err "cyclic $ref detected: #/$defs/A -> #/$defs/B -> #/$defs/A" := by
  constructor
  · intro fuel kvs root stack p hlk hmem
    have hcont : containsGo stack p = true := (containsGo_iff stack p).mpr hmem
    simp only [inlineRefs, hlk, hcont, if_true]
  · rfl

/-- Claim C5 witness: the general cycle statement instantiated on a
single-pointer stack. -/
theorem claim_C5_witness :
    inlineRefs 1 (.obj [("$ref", Json.str "#/x")]) Json.null ["#/x"]
      = .err (cyclicMsg ["#/x"] "#/x") :=
  claim_C5.1 0 [("$ref", Json.str "#/x")] Json.null ["#/x"] "#/x" rfl (by decide)

/-- Claim C6: when a path segment is absent from the current object, pointer
resolution fails with the unresolved-reference error naming the full pointer
string and the missing segment; the spec's `{"value":{"$ref":"#/$defs/Missing"}}`
document fails with that error (at this input the missing segment is `$defs`,
and `Missing` is named through the full pointer inside the message). -/
theorem claim_C6 :
    (∀ (ptr : String) (m : List (String × Json)) (raw : String) (rest : List String),
      lookupKV m (unescapeSeg raw) = none →
      resolveSegs ptr (.obj m) (raw :: rest)
        = .error (unresolvedMsg ptr (unescapeSeg raw))) ∧
    flattenDoc 10 docC6 = .err (unresolvedMsg "#/$defs/Missing" "$defs") ∧
    unresolvedMsg "#/$defs/Missing" "$defs"
      = "unresolved $ref \"#/$defs/" ++ "Missing" ++ "\": missing key \"$defs\"" := by
  refine ⟨?_, rfl, rfl⟩
  intro ptr m raw rest hl
  simp only [resolveSegs, hl]

/-- Claim C6 witness: the general missing-segment statement instantiated on
the spec's example pointer. -/
theorem claim_C6_witness :
    resolveSegs "#/$defs/Missing" (.obj [("value", Json.null)]) ["$defs", "Missing"]
      = .error (unresolvedMsg "#/$defs/Missing" "$defs") :=
  claim_C6.1 "#/$defs/Missing" [("value", Json.null)] "$defs" ["Missing"] rfl

/-- Claim C7: the pointer resolver accepts exactly the pointers beginning with
`#/`: any other pointer string fails with the unsupported-reference-form
error, and the bare `#/` resolves to the document root itself. -/
theorem claim_C7 :
    (∀ (root : Json) (ptr : String), hasPrefixGo ptr "#/" = false →
      getByPointer root ptr = .error (unsupportedRefMsg ptr)) ∧
    (∀ root : Json, getByPointer root "#/" = .ok root) := by
  constructor
  · intro root ptr h
    simp only [getByPointer, h, Bool.false_eq_true, if_false]
  · intro root; rfl

/-- Claim C7 witness: a bare `#`, an absolute URI and a relative file
reference are all rejected, and `#/` resolves to the root. -/
theorem claim_C7_witness :
    getByPointer Json.null "#" = .error (unsupportedRefMsg "#") ∧
    getByPointer Json.null "https://example.com/s.json#/a"
      = .error (unsupportedRefMsg "https://example.com/s.json#/a") ∧
    getByPointer Json.null "other.json" = .error (unsupportedRefMsg "other.json") ∧
    getByPointer (Json.str "r") "#/" = .ok (Json.str "r") :=
  ⟨claim_C7.1 Json.null "#" rfl, claim_C7.1 Json.null _ rfl,
   claim_C7.1 Json.null _ rfl, claim_C7.2 (Json.str "r")⟩

/-- Claim C8: the path after `#/` is split on `/` and each raw segment is
unescaped (`~1` to `/` first, then `~0` to `~`) before key lookup; the order
shows in `~01` unescaping to `~1`, and a `$defs` entry literally named `a/b`
is resolved by the pointer `#/$defs/a~1b`. -/
theorem claim_C8 :
    (∀ (root : Json) (ptr : String), hasPrefixGo ptr "#/" = true → ptr.data.drop 2 ≠ [] →
      getByPointer root ptr
        = resolveSegs ptr root ((splitChars '/' (ptr.data.drop 2)).map String.mk)) ∧
    (∀ (ptr raw : String) (m : List (String × Json)) (rest : List String) (next : Json),
      lookupKV m (unescapeSeg raw) = some next →
      resolveSegs ptr (.obj m) (raw :: rest) = resolveSegs ptr next rest) ∧
    unescapeSeg "a~1b" = "a/b" ∧
    unescapeSeg "~01" = "~1" ∧
    getByPointer docC8 "#/$defs/a~1b" = .ok (.obj [("type", Json.str "string")]) ∧
    flattenDoc 10 docC8 = .ok (.obj [("value", .obj [("type", Json.str "string")])]) := by
  refine ⟨?_, ?_, rfl, rfl, rfl, rfl⟩
  · intro root ptr h hne
    simp only [getByPointer]
    rw [if_pos h, if_neg hne]
  · intro ptr raw m rest next hl
    simp only [resolveSegs, hl]

/-- Claim C8 witness: the split and lookup steps instantiated on concrete
pointers. -/
theorem claim_C8_witness :
    getByPointer docC8 "#/$defs/a~1b"
      = resolveSegs "#/$defs/a~1b" docC8
          ((splitChars '/' (("#/$defs/a~1b" : String).data.drop 2)).map String.mk) ∧
    resolveSegs "#/x" (.obj [("k", Json.bool true)]) ["k"]
      = resolveSegs "#/x" (Json.bool true) [] :=
  ⟨claim_C8.1 docC8 "#/$defs/a~1b" rfl (by decide),
   claim_C8.2.1 "#/x" "k" [("k", Json.bool true)] [] (Json.bool true) rfl⟩

/-- Claim C9: the batch orchestrator stops at the first failing file and
returns that file's error with no update map at all; when every entry
succeeds (or is skipped) it returns the complete path-to-bytes mapping
accumulated over the walk. -/
theorem claim_C9 :
    (∀ (env : BatchEnv) (pre post : List FsEntry) (e : FsEntry) (m : String),
      (∀ x ∈ pre, entryBad env x = false) →
      procEntry env e = some (.err m) →
      InlineBundledSchemasInFS env (pre ++ e :: post) = .err m) ∧
    (∀ (env : BatchEnv) (entries : List FsEntry),
      (∀ x ∈ entries, entryBad env x = false) →
      InlineBundledSchemasInFS env entries = .ok (collectUpdates env entries [])) := by
  constructor
  · intro env pre post e m hok hp
    exact runBatch_err env pre post e m [] hok hp
  · intro env entries hok
    exact runBatch_ok env entries [] hok

/-- A batch environment for the witness: a toy codec and no write-back. -/
def wEnv : BatchEnv :=
  ⟨fun s => if s = "\x7b\x7d" then .ok (.obj []) else .error "unexpected end of JSON input",
   fun _ => "\x7b\x7d", none, 4⟩

/-- A readable `a.json` entry. -/
def wGood : FsEntry := ⟨"a.json", "a.json", false, none, .ok "\x7b\x7d", none⟩

/-- A `b.json` entry whose read fails. -/
def wBad : FsEntry := ⟨"b.json", "b.json", false, none, .error "permission denied", none⟩

/-- Claim C9 witness: a failing read in the middle of the walk aborts the
batch with the contextualized read error and no map, and the single-good-file
walk returns the complete mapping. -/
theorem claim_C9_witness :
    InlineBundledSchemasInFS wEnv [wGood, wBad, wGood]
      = .err "read b.json: permission denied" ∧
    InlineBundledSchemasInFS wEnv [wGood] = .ok (collectUpdates wEnv [wGood] []) ∧
    collectUpdates wEnv [wGood] [] = [("a.json", "\x7b\x7d\n")] := by
  refine ⟨?_, ?_, rfl⟩
  · exact claim_C9.1 wEnv [wGood] [wGood] wBad "read b.json: permission denied"
      (by intro x hx; rw [List.mem_singleton] at hx; subst hx; rfl) rfl
  · exact claim_C9.2 wEnv [wGood]
      (by intro x hx; rw [List.mem_singleton] at hx; subst hx; rfl)

/-- Claim C10: when a `$ref` target resolves to a non-object, the siblings are
still recursively inlined before being discarded: a sibling carrying an
unresolvable `$ref` aborts the file with that sibling's error, although with
an innocuous sibling the output drops the sibling entirely. -/
theorem claim_C10 :
    flattenDoc 10 docC10bad = .err (unresolvedMsg "#/nope" "nope") ∧
    flattenDoc 10 docC10good = .ok (.obj [("value", Json.str "scalar")]) :=
  ⟨rfl, rfl⟩

end SchemaFlat
